import Mathlib

/-!
Verification of the kraken p2p distribution core against its sources.

Each section shallowly embeds one Go component:
* `Hashring` embeds `ring.Locations` (rendezvous hashing ring).
* `Healthcheck` embeds the passive filter and the active health-check state.
* `Reload` embeds `reloadableScheduler.Reload`.
* `Dedup` embeds `IntervalTrap.Trap`.
* `Store` embeds `SimpleStore.CreateCacheFile`.

Machine time is modelled by natural numbers (time.Time instants and
time.Duration widths in the same unit); Go `time.Sub` on instants that are
ordered corresponds to truncated `Nat` subtraction.
-/

namespace Kraken

/-- Association-list lookup, modelling a read of a Go map. -/
def alistLookup {α : Type} (l : List (String × α)) (k : String) : Option α :=
  match l with
  | [] => none
  | p :: rest => if p.1 = k then some p.2 else alistLookup rest k

/-- Association-list write, modelling `m[k] = v` on a Go map. -/
def alistInsert {α : Type} (l : List (String × α)) (k : String) (v : α) :
    List (String × α) :=
  match l with
  | [] => [(k, v)]
  | p :: rest => if p.1 = k then (k, v) :: rest else p :: alistInsert rest k v

theorem alistLookup_alistInsert_self {α : Type} (l : List (String × α))
    (k : String) (v : α) : alistLookup (alistInsert l k v) k = some v := by
  induction l with
  | nil => simp [alistInsert, alistLookup]
  | cons p rest ih =>
      by_cases h : p.1 = k
      · simp [alistInsert, h, alistLookup]
      · simp [alistInsert, h, alistLookup, ih]

theorem alistLookup_mem {α : Type} {l : List (String × α)} {k : String}
    {v : α} (h : alistLookup l k = some v) : (k, v) ∈ l := by
  induction l with
  | nil => simp [alistLookup] at h
  | cons p rest ih =>
      rw [alistLookup] at h
      by_cases hk : p.1 = k
      · rw [if_pos hk] at h
        have hv : p.2 = v := by
          injection h
        have hp : p = (k, v) := by
          rcases p with ⟨pk, pv⟩
          simp only at hk hv
          rw [hk, hv]
        rw [← hp]
        exact List.mem_cons_self _ _
      · rw [if_neg hk] at h
        exact List.mem_cons_of_mem _ (ih h)

theorem mem_alistInsert {α : Type} {l : List (String × α)} {k : String}
    {v : α} {p : String × α} (h : p ∈ alistInsert l k v) :
    p = (k, v) ∨ p ∈ l := by
  induction l with
  | nil => simpa [alistInsert] using h
  | cons q rest ih =>
      by_cases hk : q.1 = k
      · simp [alistInsert, hk] at h
        rcases h with h | h
        · exact Or.inl h
        · exact Or.inr (List.mem_cons_of_mem _ h)
      · simp [alistInsert, hk] at h
        rcases h with h | h
        · exact Or.inr (by simp [h])
        · rcases ih h with h' | h'
          · exact Or.inl h'
          · exact Or.inr (List.mem_cons_of_mem _ h')

end Kraken

namespace Kraken.Hashring

/-- Loop body of `ring.Locations` (hashring/ring.go): walk the rendezvous
ordered nodes with index `i` and accumulator `locs`, continuing while
`len(locs) == 0 || i < maxReplica`, and collecting each healthy node. -/
def locationsLoop (healthy : List String) (maxReplica : Nat) :
    List String → Nat → List String → List String
  | [], _, locs => locs
  | n :: rest, i, locs =>
    if locs.length = 0 ∨ i < maxReplica then
      locationsLoop healthy maxReplica rest (i + 1)
        (if healthy.contains n then locs ++ [n] else locs)
    else locs

/-- Embedding of `ring.Locations`: `nodes` is the rendezvous-ordered node
list for `d.ShardID` (`hash.GetOrderedNodes`), `healthy` the current healthy
set. If the healthy set is empty the first node is returned unconditionally;
otherwise the walk above runs from index 0 with an empty accumulator. -/
def locations (maxReplica : Nat) (healthy : List String)
    (nodes : List String) : List String :=
  if healthy.length = 0 then [nodes.headI]
  else locationsLoop healthy maxReplica nodes 0 []

theorem locationsLoop_ne_nil (healthy : List String) (maxReplica : Nat) :
    ∀ (nodes : List String) (i : Nat) (locs : List String), locs ≠ [] →
      locationsLoop healthy maxReplica nodes i locs ≠ [] := by
  intro nodes
  induction nodes with
  | nil => intro i locs h; simpa [locationsLoop] using h
  | cons n rest ih =>
      intro i locs h
      rw [locationsLoop]
      by_cases hc : locs.length = 0 ∨ i < maxReplica
      · rw [if_pos hc]
        by_cases hn : healthy.contains n
        · rw [if_pos hn]
          exact ih _ _ (by simp)
        · rw [if_neg hn]
          exact ih _ _ h
      · rw [if_neg hc]
        exact h

theorem locationsLoop_nonempty_acc (healthy : List String) (maxReplica : Nat) :
    ∀ (nodes : List String) (i : Nat) (locs : List String), locs ≠ [] →
      locationsLoop healthy maxReplica nodes i locs
        = locs ++ (nodes.take (maxReplica - i)).filter
            (fun a => healthy.contains a) := by
  intro nodes
  induction nodes with
  | nil => intro i locs _; simp [locationsLoop]
  | cons n rest ih =>
      intro i locs h
      have hlen : ¬ locs.length = 0 := by
        simpa [List.length_eq_zero] using h
      rw [locationsLoop]
      by_cases hi : i < maxReplica
      · rw [if_pos (Or.inr hi)]
        have htake : maxReplica - i = (maxReplica - (i + 1)) + 1 := by omega
        rw [htake, List.take_succ_cons]
        by_cases hn : healthy.contains n
        · rw [if_pos hn, ih (i + 1) (locs ++ [n]) (by simp)]
          have hn' : n ∈ healthy := by simpa using hn
          simp [List.filter_cons, hn']
        · rw [if_neg hn, ih (i + 1) locs h]
          have hn' : n ∉ healthy := by simpa using hn
          simp [List.filter_cons, hn']
      · rw [if_neg (by simp [hlen, hi])]
        have hz : maxReplica - i = 0 := by omega
        simp [hz]

theorem locationsLoop_skip_unhealthy (healthy : List String)
    (maxReplica : Nat) :
    ∀ (pre : List String) (nodes : List String) (i : Nat),
      (∀ a ∈ pre, healthy.contains a = false) →
      locationsLoop healthy maxReplica (pre ++ nodes) i []
        = locationsLoop healthy maxReplica nodes (i + pre.length) [] := by
  intro pre
  induction pre with
  | nil => intro nodes i _; simp
  | cons q pre' ih =>
      intro nodes i hpre
      have hq : healthy.contains q = false := hpre q (by simp)
      rw [List.cons_append, locationsLoop]
      have hcond : (([] : List String).length = 0 ∨ i < maxReplica) :=
        Or.inl rfl
      rw [if_pos hcond, if_neg (by simpa using hq)]
      rw [ih nodes (i + 1) (fun a ha => hpre a (List.mem_cons_of_mem _ ha))]
      congr 1
      simp
      omega

theorem dropWhile_head_false {α : Type} (q : α → Bool) :
    ∀ (l : List α) (b : α) (t : List α), l.dropWhile q = b :: t →
      q b = false := by
  intro l
  induction l with
  | nil => intro b t h; simp [List.dropWhile] at h
  | cons x xs ih =>
      intro b t h
      rw [List.dropWhile_cons] at h
      by_cases hx : q x
      · rw [if_pos hx] at h
        exact ih b t h
      · rw [if_neg hx] at h
        injection h with h1 _
        rw [← h1]
        simpa using hx

theorem find?_append_first {α : Type} (p : α → Bool) :
    ∀ (pre : List α) (n : α) (rest : List α),
      (∀ a ∈ pre, p a = false) → p n = true →
      (pre ++ n :: rest).find? p = some n := by
  intro pre
  induction pre with
  | nil => intro n rest _ hn; simp [List.find?_cons_of_pos _ hn]
  | cons q pre' ih =>
      intro n rest hpre hn
      rw [List.cons_append,
        List.find?_cons_of_neg _ (by simp [hpre q (by simp)])]
      exact ih n rest (fun a ha => hpre a (List.mem_cons_of_mem _ ha)) hn

theorem locationsLoop_no_healthy (healthy : List String) (maxReplica : Nat) :
    ∀ (nodes : List String) (i : Nat),
      (∀ a ∈ nodes, healthy.contains a = false) →
      locationsLoop healthy maxReplica nodes i [] = [] := by
  intro nodes
  induction nodes with
  | nil => intro i _; simp [locationsLoop]
  | cons n rest ih =>
      intro i h
      rw [locationsLoop]
      have hcond : (([] : List String).length = 0 ∨ i < maxReplica) :=
        Or.inl rfl
      rw [if_pos hcond, if_neg (by simpa using h n (by simp))]
      exact ih (i + 1) (fun a ha => h a (List.mem_cons_of_mem _ ha))

theorem locationsLoop_first_healthy (healthy : List String) (mr : Nat)
    (pre : List String) (n : String) (rest : List String)
    (hpre : ∀ a ∈ pre, healthy.contains a = false)
    (hn : healthy.contains n = true) :
    locationsLoop healthy mr (pre ++ n :: rest) 0 []
      = n :: (rest.take (mr - (pre.length + 1))).filter
          (fun a => healthy.contains a) := by
  rw [locationsLoop_skip_unhealthy healthy mr pre (n :: rest) 0 hpre]
  rw [locationsLoop]
  have hcond : (([] : List String).length = 0 ∨ 0 + pre.length < mr) :=
    Or.inl rfl
  rw [if_pos hcond, if_pos hn]
  rw [locationsLoop_nonempty_acc healthy mr rest (0 + pre.length + 1)
    ([] ++ [n]) (by simp)]
  simp

/-- C1: for every digest, `ring.Locations` returns the single top-ranked
node of the rendezvous order when the healthy set is empty; otherwise it
returns, in rendezvous order, every healthy node among the first
`MaxReplica` nodes, and when none of the first `MaxReplica` nodes is
healthy it returns exactly the first healthy node found continuing the
walk. `nodes` is the rendezvous-ordered node list for `d.ShardID`. -/
theorem ring_locations_cases (mr : Nat) (healthy nodes : List String)
    (hnodes : nodes ≠ [])
    (hsub : ∀ a ∈ healthy, a ∈ nodes) :
    (healthy = [] → locations mr healthy nodes = [nodes.headI]) ∧
    (healthy ≠ [] →
      ((nodes.take mr).any (fun a => healthy.contains a) = true →
        locations mr healthy nodes
          = (nodes.take mr).filter (fun a => healthy.contains a)) ∧
      ((nodes.take mr).any (fun a => healthy.contains a) = false →
        ∃ n, nodes.find? (fun a => healthy.contains a) = some n ∧
          locations mr healthy nodes = [n])) := by
  constructor
  · intro h
    simp [locations, h]
  · intro hne
    have hlen : ¬ healthy.length = 0 := fun h =>
      hne (List.length_eq_zero.mp h)
    have hloc : locations mr healthy nodes
        = locationsLoop healthy mr nodes 0 [] := by
      simp [locations, hlen]
    obtain ⟨a0, ha0⟩ : ∃ a, a ∈ healthy := by
      cases healthy with
      | nil => exact absurd rfl hne
      | cons x xs => exact ⟨x, List.mem_cons_self x xs⟩
    have hsplit : nodes.takeWhile (fun a => !healthy.contains a)
        ++ nodes.dropWhile (fun a => !healthy.contains a) = nodes :=
      List.takeWhile_append_dropWhile _ _
    have hpre : ∀ a ∈ nodes.takeWhile (fun a => !healthy.contains a),
        healthy.contains a = false := by
      intro a ha
      have h1 := List.mem_takeWhile_imp ha
      simpa using h1
    cases hsuf : nodes.dropWhile (fun a => !healthy.contains a) with
    | nil =>
        exfalso
        have hmem : a0 ∈ nodes.takeWhile (fun a => !healthy.contains a) := by
          have h2 := hsub a0 ha0
          rw [← hsplit, hsuf] at h2
          simpa using h2
        have h3 := hpre a0 hmem
        simp [ha0] at h3
    | cons n rest =>
        have hn : healthy.contains n = true := by
          have h1 := dropWhile_head_false _ _ _ _ hsuf
          simpa using h1
        have hres : locationsLoop healthy mr nodes 0 []
            = n :: (rest.take
                (mr - ((nodes.takeWhile
                  (fun a => !healthy.contains a)).length + 1))).filter
                (fun a => healthy.contains a) := by
          conv_lhs => rw [← hsplit, hsuf]
          exact locationsLoop_first_healthy healthy mr _ n rest hpre hn
        constructor
        · intro hany
          have hj : (nodes.takeWhile (fun a => !healthy.contains a)).length
              < mr := by
            by_contra hge
            push_neg at hge
            have htk : nodes.take mr
                = (nodes.takeWhile (fun a => !healthy.contains a)).take mr := by
              conv_lhs => rw [← hsplit, hsuf]
              rw [List.take_append_eq_append_take]
              have hz : mr - (nodes.takeWhile
                  (fun a => !healthy.contains a)).length = 0 := by omega
              rw [hz]
              simp
            rw [htk] at hany
            rcases List.any_eq_true.mp hany with ⟨a, ha, hpa⟩
            have hmem := List.take_subset mr _ ha
            rw [hpre a hmem] at hpa
            simp at hpa
          have hmr' : mr - (nodes.takeWhile
                (fun a => !healthy.contains a)).length
              = (mr - ((nodes.takeWhile
                  (fun a => !healthy.contains a)).length + 1)) + 1 := by
            omega
          have htake : nodes.take mr
              = nodes.takeWhile (fun a => !healthy.contains a)
                ++ n :: rest.take (mr - ((nodes.takeWhile
                    (fun a => !healthy.contains a)).length + 1)) := by
            conv_lhs => rw [← hsplit, hsuf]
            rw [List.take_append_eq_append_take]
            rw [List.take_of_length_le (le_of_lt hj)]
            rw [hmr', List.take_succ_cons]
          have hnilf : List.filter (fun a => healthy.contains a)
              (List.takeWhile (fun a => !healthy.contains a) nodes) = [] :=
            List.filter_eq_nil_iff.mpr (fun a ha => by simpa using hpre a ha)
          have hn' : n ∈ healthy := by simpa using hn
          rw [hloc, hres, htake, List.filter_append, hnilf]
          simp [List.filter_cons, hn']
        · intro hany
          refine ⟨n, ?_, ?_⟩
          · conv_lhs => rw [← hsplit, hsuf]
            exact find?_append_first _ _ n rest hpre hn
          · have hj : mr ≤ (nodes.takeWhile
                (fun a => !healthy.contains a)).length := by
              by_contra hlt
              push_neg at hlt
              have hmr' : mr - (nodes.takeWhile
                    (fun a => !healthy.contains a)).length
                  = (mr - ((nodes.takeWhile
                      (fun a => !healthy.contains a)).length + 1)) + 1 := by
                omega
              have htake : nodes.take mr
                  = nodes.takeWhile (fun a => !healthy.contains a)
                    ++ n :: rest.take (mr - ((nodes.takeWhile
                        (fun a => !healthy.contains a)).length + 1)) := by
                conv_lhs => rw [← hsplit, hsuf]
                rw [List.take_append_eq_append_take]
                rw [List.take_of_length_le (le_of_lt hlt)]
                rw [hmr', List.take_succ_cons]
              rw [htake] at hany
              have hmem : n ∈ nodes.takeWhile (fun a => !healthy.contains a)
                  ++ n :: rest.take (mr - ((nodes.takeWhile
                      (fun a => !healthy.contains a)).length + 1)) := by
                simp
              have := List.any_eq_true.mpr ⟨n, hmem, hn⟩
              rw [this] at hany
              cases hany
            have hz : mr - ((nodes.takeWhile
                (fun a => !healthy.contains a)).length + 1) = 0 := by omega
            rw [hloc, hres, hz]
            simp

/-- C2: whenever the ring's resolved membership (the rendezvous-ordered
node list) is non-empty and the healthy set is a subset of the membership,
`ring.Locations` returns at least one address. -/
theorem ring_locations_nonempty (mr : Nat) (healthy nodes : List String)
    (hnodes : nodes ≠ [])
    (hsub : ∀ a ∈ healthy, a ∈ nodes) :
    locations mr healthy nodes ≠ [] := by
  by_cases hlen : healthy.length = 0
  · simp [locations, hlen]
  · rw [locations, if_neg hlen]
    have hne : healthy ≠ [] := fun h => hlen (by simp [h])
    obtain ⟨a0, ha0⟩ : ∃ a, a ∈ healthy := by
      cases healthy with
      | nil => exact absurd rfl hne
      | cons x xs => exact ⟨x, List.mem_cons_self x xs⟩
    have hsplit : nodes.takeWhile (fun a => !healthy.contains a)
        ++ nodes.dropWhile (fun a => !healthy.contains a) = nodes :=
      List.takeWhile_append_dropWhile _ _
    have hpre : ∀ a ∈ nodes.takeWhile (fun a => !healthy.contains a),
        healthy.contains a = false := by
      intro a ha
      have h1 := List.mem_takeWhile_imp ha
      simpa using h1
    cases hsuf : nodes.dropWhile (fun a => !healthy.contains a) with
    | nil =>
        exfalso
        have hmem : a0 ∈ nodes.takeWhile (fun a => !healthy.contains a) := by
          have h2 := hsub a0 ha0
          rw [← hsplit, hsuf] at h2
          simpa using h2
        have h3 := hpre a0 hmem
        simp [ha0] at h3
    | cons n rest =>
        have hn : healthy.contains n = true := by
          have h1 := dropWhile_head_false _ _ _ _ hsuf
          simpa using h1
        conv_lhs => rw [← hsplit, hsuf]
        rw [locationsLoop_first_healthy healthy mr _ n rest hpre hn]
        simp

/-- Closed instance discharging the hypotheses of `ring_locations_cases`
at a concrete ring. -/
theorem ring_locations_cases_witness :
    (["h1", "h2", "h3"] : List String) ≠ [] ∧
    locations 2 ["h2"] ["h1", "h2", "h3"]
      = ((["h1", "h2", "h3"] : List String).take 2).filter
          (fun a => (["h2"] : List String).contains a) :=
  ⟨by simp,
    ((ring_locations_cases 2 ["h2"] ["h1", "h2", "h3"] (by simp)
      (by decide)).2 (by simp)).1 (by decide)⟩

/-- Closed instance discharging the hypotheses of `ring_locations_nonempty`
at a concrete ring. -/
theorem ring_locations_nonempty_witness :
    (["h1", "h2", "h3"] : List String) ≠ [] ∧
    locations 2 ["h3"] ["h1", "h2", "h3"] ≠ [] :=
  ⟨by simp,
    ring_locations_nonempty 2 ["h3"] ["h1", "h2", "h3"] (by simp)
      (by decide)⟩

end Kraken.Hashring

namespace Kraken.Healthcheck

/-- Config of the passive filter (`PassiveFilterConfig`): `fails` is the
failure count threshold, `failTimeout` the sliding-window width. -/
structure PassiveFilterConfig where
  fails : Nat
  failTimeout : Nat
deriving DecidableEq

/-- State of `passiveFilter`: per-address unhealthy-since instants and
per-address failure timestamp lists, both Go maps. -/
structure PassiveFilterState where
  config : PassiveFilterConfig
  unhealthy : List (String × Nat)
  failures : List (String × List Nat)
deriving DecidableEq

/-- Fresh passive filter (`NewPassiveFilter`): both maps empty. -/
def newPassiveFilter (config : PassiveFilterConfig) : PassiveFilterState :=
  { config := config, unhealthy := [], failures := [] }

/-- Embedding of `passiveFilter.Failed`: pop expired failures off the front
of the window, append the current instant, and mark the address unhealthy
(unhealthy-since = now) when the window holds at least `Fails` entries. -/
def pfFailed (f : PassiveFilterState) (addr : String) (now : Nat) :
    PassiveFilterState :=
  let fs0 := (alistLookup f.failures addr).getD []
  let fs1 := fs0.dropWhile (fun t => now - t > f.config.failTimeout)
  let fs2 := fs1 ++ [now]
  let unhealthy :=
    if fs2.length ≥ f.config.fails then alistInsert f.unhealthy addr now
    else f.unhealthy
  { f with failures := alistInsert f.failures addr fs2,
           unhealthy := unhealthy }

/-- Embedding of `passiveFilter.Run`: remove from `addrs` every address
whose unhealthy mark is at most `FailTimeout` old, garbage-collecting
strictly older marks from the unhealthy map. -/
def pfRun (f : PassiveFilterState) (addrs : List String) (now : Nat) :
    PassiveFilterState × List String :=
  let healthy := addrs.filter (fun a =>
    match alistLookup f.unhealthy a with
    | none => true
    | some t => now - t > f.config.failTimeout)
  let unhealthy := f.unhealthy.filter
    (fun p => ¬ (now - p.2 > f.config.failTimeout))
  ({ f with unhealthy := unhealthy }, healthy)

/-- Scenario filter of claim C3: `Fails = 3`, `FailTimeout = 30` seconds,
with `Failed("h1")` reported at t = 0, 1 and 2. -/
def c3Filter : PassiveFilterState :=
  pfFailed (pfFailed (pfFailed (newPassiveFilter ⟨3, 30⟩) "h1" 0) "h1" 1)
    "h1" 2

/-- C3 counterexample: in the scenario with failures on h1 at t = 0, 1, 2,
`Run({h1, h2})` at t = 31 still returns only `{h2}` — the unhealthy mark
was set at t = 2, so at t = 31 it is 29 seconds old, not yet expired. The
claimed result `{h1, h2}` at t = 31 is therefore wrong. -/
theorem passive_filter_scenario_counterexample :
    (pfRun c3Filter ["h1", "h2"] 3).2 = ["h2"] ∧
    (pfRun (pfRun c3Filter ["h1", "h2"] 3).1 ["h1", "h2"] 31).2 = ["h2"] ∧
    "h1" ∉ (pfRun (pfRun c3Filter ["h1", "h2"] 3).1 ["h1", "h2"] 31).2 := by
  decide

/-- C3 amended: with `Fails = 3`, `FailTimeout = 30`s and `Failed("h1")` at
t = 0, 1, 2s, `Run({h1, h2})` at t = 3s returns `{h2}` and at t = 33s
returns `{h1, h2}` (the mark set at t = 2s must become strictly older than
`FailTimeout`). -/
theorem passive_filter_scenario :
    (pfRun c3Filter ["h1", "h2"] 3).2 = ["h2"] ∧
    (pfRun (pfRun c3Filter ["h1", "h2"] 3).1 ["h1", "h2"] 33).2
      = ["h1", "h2"] := by
  decide

theorem dropWhile_expired_eq_filter (timeout now : Nat) :
    ∀ (l : List Nat), l.Sorted (· ≤ ·) → (∀ t ∈ l, t ≤ now) →
      l.dropWhile (fun t => now - t > timeout)
        = l.filter (fun t => now - t ≤ timeout) := by
  intro l
  induction l with
  | nil => intro _ _; simp
  | cons t rest ih =>
      intro hsort hpast
      rw [List.sorted_cons] at hsort
      rw [List.dropWhile_cons, List.filter_cons]
      by_cases hexp : now - t > timeout
      · rw [if_pos (by simpa using hexp)]
        have hkeep : ¬ (now - t ≤ timeout) := by omega
        rw [if_neg (by simp [hkeep])]
        exact ih hsort.2 (fun u hu => hpast u (List.mem_cons_of_mem _ hu))
      · rw [if_neg (by simpa using hexp)]
        have hkeep : now - t ≤ timeout := by omega
        rw [if_pos (by simp [hkeep])]
        congr 1
        symm
        apply List.filter_eq_self.mpr
        intro u hu
        have h1 : t ≤ u := hsort.1 u hu
        have h2 : now - u ≤ now - t := Nat.sub_le_sub_left h1 now
        simp
        omega

/-- C4 amended: `Failed(a)` rewrites the stored window to the old failures
at most `FailTimeout` old followed by `now`, and marks a unhealthy with
unhealthy-since `now` exactly when this window holds at least `Fails`
entries; `Run(addrs)` excludes an address exactly while its unhealthy
timestamp is at most `FailTimeout` old (strictly older marks are
garbage-collected), so an address whose mark has aged strictly more than
`FailTimeout` with no new failures is again included in `Run(addrs)`. -/
theorem passive_filter_window
    (f : PassiveFilterState) (addr : String) (now : Nat)
    (hsort : ((alistLookup f.failures addr).getD []).Sorted (· ≤ ·))
    (hpast : ∀ t ∈ (alistLookup f.failures addr).getD [], t ≤ now) :
    (alistLookup (pfFailed f addr now).failures addr
       = some ((((alistLookup f.failures addr).getD []).filter
           (fun t => now - t ≤ f.config.failTimeout)) ++ [now])) ∧
    (((((alistLookup f.failures addr).getD []).filter
           (fun t => now - t ≤ f.config.failTimeout)).length + 1
         ≥ f.config.fails →
       (pfFailed f addr now).unhealthy
         = alistInsert f.unhealthy addr now) ∧
     ((((alistLookup f.failures addr).getD []).filter
           (fun t => now - t ≤ f.config.failTimeout)).length + 1
         < f.config.fails →
       (pfFailed f addr now).unhealthy = f.unhealthy)) ∧
    (∀ (g : PassiveFilterState) (addrs : List String) (m : Nat)
       (a : String),
       a ∈ (pfRun g addrs m).2 ↔
         a ∈ addrs ∧ ∀ t, alistLookup g.unhealthy a = some t →
           m - t > g.config.failTimeout) ∧
    (∀ (g : PassiveFilterState) (addrs : List String) (m : Nat)
       (a : String) (t : Nat),
       ((a, t) ∈ (pfRun g addrs m).1.unhealthy ↔
         (a, t) ∈ g.unhealthy ∧ m - t ≤ g.config.failTimeout)) ∧
    (∀ (g : PassiveFilterState) (addrs : List String) (m : Nat)
       (a : String) (t : Nat),
       alistLookup g.unhealthy a = some t →
       m - t > g.config.failTimeout → a ∈ addrs →
       a ∈ (pfRun g addrs m).2) := by
  have hwin := dropWhile_expired_eq_filter f.config.failTimeout now
    ((alistLookup f.failures addr).getD []) hsort hpast
  have hrunmem : ∀ (g : PassiveFilterState) (addrs : List String) (m : Nat)
      (a : String),
      a ∈ (pfRun g addrs m).2 ↔
        a ∈ addrs ∧ ∀ t, alistLookup g.unhealthy a = some t →
          m - t > g.config.failTimeout := by
    intro g addrs m a
    rw [pfRun]
    simp only [List.mem_filter]
    constructor
    · rintro ⟨ha, hpred⟩
      refine ⟨ha, ?_⟩
      intro t ht
      rw [ht] at hpred
      simpa using hpred
    · rintro ⟨ha, hall⟩
      refine ⟨ha, ?_⟩
      cases ht : alistLookup g.unhealthy a with
      | none => simp
      | some t =>
          have := hall t ht
          simpa using this
  refine ⟨?_, ⟨?_, ?_⟩, hrunmem, ?_, ?_⟩
  · rw [pfFailed]
    simp only [alistLookup_alistInsert_self]
    rw [hwin]
  · intro hge
    rw [pfFailed]
    simp only []
    rw [hwin]
    rw [if_pos (by
      simp only [List.length_append, List.length_cons, List.length_nil]
      omega)]
  · intro hlt
    rw [pfFailed]
    simp only []
    rw [hwin]
    rw [if_neg (by
      simp only [List.length_append, List.length_cons, List.length_nil]
      omega)]
  · intro g addrs m a t
    rw [pfRun]
    simp only [List.mem_filter]
    constructor
    · rintro ⟨hmem, hpred⟩
      exact ⟨hmem, by simpa using hpred⟩
    · rintro ⟨hmem, hage⟩
      exact ⟨hmem, by simpa using hage⟩
  · intro g addrs m a t ht hexp ha
    rw [hrunmem]
    refine ⟨ha, ?_⟩
    intro t' ht'
    rw [ht] at ht'
    injection ht' with ht''
    rw [← ht'']
    exact hexp

/-- Closed instance discharging the hypotheses of `passive_filter_window`
at a fresh filter with `Fails = 1`, `FailTimeout = 30` and a failure at
t = 5. -/
theorem passive_filter_window_witness :
    alistLookup (pfFailed (newPassiveFilter ⟨1, 30⟩) "h1" 5).failures "h1"
      = some [5] := by
  have h := (passive_filter_window (newPassiveFilter ⟨1, 30⟩) "h1" 5
    (by simp [newPassiveFilter, alistLookup])
    (by simp [newPassiveFilter, alistLookup])).1
  simpa [newPassiveFilter, alistLookup] using h

/-- C4 counterexample: with `Fails = 1`, `FailTimeout = 30` and a failure
on h1 at t = 0, `Run({h1})` at t = 30 still excludes h1 although its
unhealthy timestamp (set at t = 0) is not younger than `FailTimeout` — its
age equals `FailTimeout` exactly, refuting the claimed strict-youth
characterization of exclusion. -/
theorem passive_filter_boundary_counterexample :
    alistLookup (pfFailed (newPassiveFilter ⟨1, 30⟩) "h1" 0).unhealthy "h1"
      = some 0 ∧
    "h1" ∉ (pfRun (pfFailed (newPassiveFilter ⟨1, 30⟩) "h1" 0)
      ["h1"] 30).2 ∧
    ¬ ((30 : Nat) - 0 < 30) := by
  decide

/-- Config of the active health-check filter (`FilterConfig`): thresholds
for consecutive fails and passes. -/
structure FilterConfig where
  fails : Nat
  passes : Nat
deriving DecidableEq

/-- Embedding of the active health-check `state` (healthcheck/state.go):
the resolved membership `all`, the healthy subset, and the per-address
trend counters (a Go map, absent key reads as 0). -/
structure HCState where
  all : List String
  healthy : List String
  trend : List (String × Int)
deriving DecidableEq

/-- Embedding of `newState`: all three structures empty. -/
def newState : HCState := { all := [], healthy := [], trend := [] }

/-- Trend counter of an address (`s.trend[addr]`), defaulting to 0 for an
absent key like a Go map read. -/
def trendOf (s : HCState) (addr : String) : Int :=
  (alistLookup s.trend addr).getD 0

/-- Go `stringset.Set.Add` on the list model: append unless present. -/
def setAdd (l : List String) (a : String) : List String :=
  if l.contains a then l else l ++ [a]

/-- Go `stringset.Set.Remove` on the list model: drop every occurrence. -/
def setRemove (l : List String) (a : String) : List String :=
  l.filter (fun x => x ≠ a)

/-- Embedding of `state.sync`: the first loop adds every address of
`addrs` not yet in `all` to both `all` and `healthy`; the second loop
walks the healthy set and, for entries absent from `addrs`, removes them
from `healthy` and deletes their trend — `all` is left untouched by the
second loop, exactly as in the source. -/
def hcSync (s : HCState) (addrs : List String) : HCState :=
  let newAddrs := addrs.filter (fun a => ¬ s.all.contains a)
  let all1 := s.all ++ newAddrs
  let healthy1 := s.healthy ++ newAddrs
  { all := all1,
    healthy := healthy1.filter (fun a => addrs.contains a),
    trend := s.trend.filter
      (fun p => ¬ (healthy1.contains p.1 ∧ ¬ addrs.contains p.1)) }

/-- Embedding of `state.failed`: clamp the decremented trend into
`[-Fails, -1]` and remove the address from `healthy` when the counter
reaches `-Fails`. -/
def hcFailed (c : FilterConfig) (s : HCState) (addr : String) : HCState :=
  let t := max (min (trendOf s addr - 1) (-1)) (-(c.fails : Int))
  { s with trend := alistInsert s.trend addr t,
           healthy := if t = -(c.fails : Int) then setRemove s.healthy addr
                      else s.healthy }

/-- Embedding of `state.passed`: clamp the incremented trend into
`[1, Passes]` and add the address to `healthy` when the counter reaches
`Passes`. -/
def hcPassed (c : FilterConfig) (s : HCState) (addr : String) : HCState :=
  let t := min (max (trendOf s addr + 1) 1) (c.passes : Int)
  { s with trend := alistInsert s.trend addr t,
           healthy := if t = (c.passes : Int) then setAdd s.healthy addr
                      else s.healthy }

/-- Operations of the active health-check state. -/
inductive HCOp where
  | sync (addrs : List String)
  | failed (addr : String)
  | passed (addr : String)

/-- Apply one operation to the state. -/
def hcApply (c : FilterConfig) (s : HCState) : HCOp → HCState
  | .sync addrs => hcSync s addrs
  | .failed a => hcFailed c s a
  | .passed a => hcPassed c s a

/-- Run a sequence of operations from the fresh state. -/
def runOps (c : FilterConfig) (ops : List HCOp) : HCState :=
  ops.foldl (hcApply c) newState

/-- Every trend entry of the state lies within `[-Fails, +Passes]`. -/
def trendInv (c : FilterConfig) (s : HCState) : Prop :=
  ∀ p ∈ s.trend, -(c.fails : Int) ≤ p.2 ∧ p.2 ≤ (c.passes : Int)

theorem trendOf_bounds_of_inv (c : FilterConfig) (s : HCState)
    (h : trendInv c s) (a : String) :
    -(c.fails : Int) ≤ trendOf s a ∧ trendOf s a ≤ (c.passes : Int) := by
  unfold trendOf
  cases hl : alistLookup s.trend a with
  | none =>
      simp only [Option.getD_none]
      omega
  | some v =>
      have := h _ (alistLookup_mem hl)
      simpa using this

theorem trendInv_apply (c : FilterConfig) (s : HCState) (op : HCOp)
    (h : trendInv c s) : trendInv c (hcApply c s op) := by
  cases op with
  | sync addrs =>
      intro p hp
      simp only [hcApply, hcSync] at hp
      exact h p (List.mem_of_mem_filter hp)
  | failed a =>
      intro p hp
      simp only [hcApply, hcFailed] at hp
      rcases mem_alistInsert hp with h1 | h1
      · rw [h1]
        simp only []
        constructor
        · exact le_max_right _ _
        · apply max_le
          · have hm : min (trendOf s a - 1) (-1) ≤ -1 := min_le_right _ _
            omega
          · omega
      · exact h p h1
  | passed a =>
      intro p hp
      simp only [hcApply, hcPassed] at hp
      rcases mem_alistInsert hp with h1 | h1
      · rw [h1]
        simp only []
        constructor
        · apply le_min
          · have hm : 1 ≤ max (trendOf s a + 1) 1 := le_max_right _ _
            omega
          · omega
        · exact min_le_right _ _
      · exact h p h1

theorem trendInv_runOps (c : FilterConfig) (ops : List HCOp) :
    trendInv c (runOps c ops) := by
  have hstep : ∀ (l : List HCOp) (s : HCState), trendInv c s →
      trendInv c (l.foldl (hcApply c) s) := by
    intro l
    induction l with
    | nil => intro s hs; exact hs
    | cons op l ih =>
        intro s hs
        exact ih _ (trendInv_apply c s op hs)
  have hbase : trendInv c newState := by
    intro p hp
    simp [newState] at hp
  exact hstep ops newState hbase

/-- C5 evaluation: with `Fails = 2`, `Passes = 2`, starting from a state
containing h1: pass, pass makes h1 healthy; fail, fail makes it unhealthy;
pass, pass makes it healthy again; after `sync({h2})`, h1 is removed from
`healthy` and `trend` — but it remains inside `all`, because `state.sync`
only walks the healthy set and never removes dropped addresses from `all`,
contradicting its own doc comment (entries not found in addrs are removed
from the state) and the claim. -/
theorem state_sync_divergence :
    "h1" ∈ (runOps ⟨2, 2⟩
      [.sync ["h1"], .passed "h1", .passed "h1"]).healthy ∧
    "h1" ∉ (runOps ⟨2, 2⟩
      [.sync ["h1"], .passed "h1", .passed "h1",
       .failed "h1", .failed "h1"]).healthy ∧
    "h1" ∈ (runOps ⟨2, 2⟩
      [.sync ["h1"], .passed "h1", .passed "h1",
       .failed "h1", .failed "h1", .passed "h1", .passed "h1"]).healthy ∧
    "h1" ∉ (runOps ⟨2, 2⟩
      [.sync ["h1"], .passed "h1", .passed "h1",
       .failed "h1", .failed "h1", .passed "h1", .passed "h1",
       .sync ["h2"]]).healthy ∧
    alistLookup (runOps ⟨2, 2⟩
      [.sync ["h1"], .passed "h1", .passed "h1",
       .failed "h1", .failed "h1", .passed "h1", .passed "h1",
       .sync ["h2"]]).trend "h1" = none ∧
    "h1" ∈ (runOps ⟨2, 2⟩
      [.sync ["h1"], .passed "h1", .passed "h1",
       .failed "h1", .failed "h1", .passed "h1", .passed "h1",
       .sync ["h2"]]).all := by
  decide

/-- C6 counterexample: syncing a fresh address inserts it as healthy with
trend 0, so with `Passes = 2` the address is in the healthy set although
its trend counter has not reached `+Passes`, refuting the claimed
healthy-iff-trend-reached-Passes equivalence. -/
theorem state_healthy_trend_counterexample :
    "h1" ∈ (hcSync newState ["h1"]).healthy ∧
    trendOf (hcSync newState ["h1"]) "h1" = 0 ∧
    ((0 : Int) ≠ (2 : Int)) := by
  decide

/-- C6 amended: the trend counter always stays within `[-Fails, +Passes]`
for every operation sequence; `failed(a)` leaves a in the healthy set
exactly when it was healthy and its updated counter has not reached
`-Fails`; `passed(a)` puts a in the healthy set exactly when its updated
counter equals `+Passes` or it already was healthy; and `sync` inserts a
previously unknown address of the latest membership as healthy. -/
theorem state_trend_bounds (c : FilterConfig) (ops : List HCOp)
    (a : String) :
    (-(c.fails : Int) ≤ trendOf (runOps c ops) a ∧
      trendOf (runOps c ops) a ≤ (c.passes : Int)) ∧
    (∀ s : HCState, a ∈ (hcFailed c s a).healthy ↔
       (a ∈ s.healthy ∧ trendOf (hcFailed c s a) a ≠ -(c.fails : Int))) ∧
    (∀ s : HCState, a ∈ (hcPassed c s a).healthy ↔
       (trendOf (hcPassed c s a) a = (c.passes : Int) ∨ a ∈ s.healthy)) ∧
    (∀ (s : HCState) (addrs : List String),
       a ∈ addrs → a ∉ s.all → a ∈ (hcSync s addrs).healthy) := by
  refine ⟨trendOf_bounds_of_inv c _ (trendInv_runOps c ops) a, ?_, ?_, ?_⟩
  · intro s
    have htr : trendOf (hcFailed c s a) a
        = max (min (trendOf s a - 1) (-1)) (-(c.fails : Int)) := by
      simp [hcFailed, trendOf, alistLookup_alistInsert_self]
    rw [htr]
    simp only [hcFailed]
    by_cases ht : max (min (trendOf s a - 1) (-1)) (-(c.fails : Int))
        = -(c.fails : Int)
    · rw [if_pos ht]
      simp [setRemove, ht, List.mem_filter]
    · rw [if_neg ht]
      simp [ht]
  · intro s
    have htr : trendOf (hcPassed c s a) a
        = min (max (trendOf s a + 1) 1) (c.passes : Int) := by
      simp [hcPassed, trendOf, alistLookup_alistInsert_self]
    rw [htr]
    simp only [hcPassed]
    by_cases ht : min (max (trendOf s a + 1) 1) (c.passes : Int)
        = (c.passes : Int)
    · rw [if_pos ht]
      simp only [setAdd, ht, true_or, iff_true]
      by_cases hmem : a ∈ s.healthy
      · simp [hmem]
      · simp [hmem]
    · rw [if_neg ht]
      simp [ht]
  · intro s addrs hmem hall
    simp only [hcSync, List.mem_filter, List.mem_append]
    constructor
    · right
      exact ⟨hmem, by simpa using hall⟩
    · simpa using hmem

/-- Closed instance discharging the inner hypotheses of
`state_trend_bounds` at a concrete configuration and state. -/
theorem state_trend_bounds_witness :
    (-((2 : Nat) : Int) ≤ trendOf (runOps ⟨2, 2⟩ [.passed "h1"]) "h1" ∧
      trendOf (runOps ⟨2, 2⟩ [.passed "h1"]) "h1" ≤ ((2 : Nat) : Int)) ∧
    "h1" ∈ (hcSync newState ["h1"]).healthy :=
  ⟨(state_trend_bounds ⟨2, 2⟩ [.passed "h1"] "h1").1,
   (state_trend_bounds ⟨2, 2⟩ [.passed "h1"] "h1").2.2.2 newState ["h1"]
     (by decide) (by decide)⟩

/-- C9: immediately after a single `failed(a)` the trend of a lies in
`[-Fails, -1]` (accumulated positive trend is discarded: from any
non-negative trend the counter lands exactly on -1), and immediately after
a single `passed(a)` the trend lies in `[1, +Passes]` (accumulated
negative trend is discarded: from any non-positive trend the counter lands
exactly on 1). -/
theorem state_trend_reset (c : FilterConfig) (s : HCState) (a : String) :
    (1 ≤ c.fails →
      (-(c.fails : Int) ≤ trendOf (hcFailed c s a) a ∧
        trendOf (hcFailed c s a) a ≤ -1) ∧
      (0 ≤ trendOf s a → trendOf (hcFailed c s a) a = -1)) ∧
    (1 ≤ c.passes →
      (1 ≤ trendOf (hcPassed c s a) a ∧
        trendOf (hcPassed c s a) a ≤ (c.passes : Int)) ∧
      (trendOf s a ≤ 0 → trendOf (hcPassed c s a) a = 1)) := by
  have htrf : trendOf (hcFailed c s a) a
      = max (min (trendOf s a - 1) (-1)) (-(c.fails : Int)) := by
    simp [hcFailed, trendOf, alistLookup_alistInsert_self]
  have htrp : trendOf (hcPassed c s a) a
      = min (max (trendOf s a + 1) 1) (c.passes : Int) := by
    simp [hcPassed, trendOf, alistLookup_alistInsert_self]
  constructor
  · intro hf
    rw [htrf]
    constructor
    · constructor
      · exact le_max_right _ _
      · apply max_le
        · exact min_le_right _ _
        · omega
    · intro hnn
      have h1 : min (trendOf s a - 1) (-1) = -1 := by omega
      rw [h1]
      have h2 : -(c.fails : Int) ≤ -1 := by omega
      omega
  · intro hp
    rw [htrp]
    constructor
    · constructor
      · apply le_min
        · exact le_max_right _ _
        · omega
      · exact min_le_right _ _
    · intro hnp
      have h1 : max (trendOf s a + 1) 1 = 1 := by omega
      rw [h1]
      have h2 : (1 : Int) ≤ (c.passes : Int) := by omega
      omega

/-- Closed instance discharging the hypotheses of `state_trend_reset` at a
concrete configuration and the fresh state. -/
theorem state_trend_reset_witness :
    1 ≤ (2 : Nat) ∧ trendOf (hcFailed ⟨2, 2⟩ newState "h1") "h1" = -1 :=
  ⟨by decide,
   ((state_trend_reset ⟨2, 2⟩ newState "h1").1 (by decide)).2 (by decide)⟩

end Kraken.Healthcheck

namespace Kraken.Reload

/-- Handles for a scheduler and its long-lived dependencies
(`scheduler` fields used by `reload`): values are opaque. -/
structure Sched where
  config : Nat
  torrentArchive : Nat
  stats : Nat
  pctx : Nat
  announceClient : Nat
  netevents : Nat
deriving DecidableEq

/-- Observable actions of `reloadableScheduler.reload` in program order. -/
inductive ReloadEvent where
  | stopped
  | constructed (config ta stats pctx ac ne : Nat)
  | startedWith (queue : Nat)
deriving DecidableEq

/-- Result of `Reload`: the new running scheduler, or a fatal process
abort (`log.Fatalf`) that never returns to the caller. -/
inductive ReloadResult where
  | ok (n : Sched)
  | fatalExit (msg : String)
deriving DecidableEq

/-- Embedding of `reloadableScheduler.reload` under the reload lock: stop
the current scheduler, construct a fresh one from the new config and the
dependencies of the old scheduler (`torrentArchive`, `stats`, `pctx`,
`announceClient`, `netevents`), and start it with the fresh announce
queue `aq` produced by the queue factory. The scheduler internals
`newScheduler` and `start` are black boxes to reload and enter as
parameters. -/
def reloadInner
    (newScheduler : Nat → Nat → Nat → Nat → Nat → Nat →
      Except String Sched)
    (start : Sched → Nat → Except String Unit)
    (aq : Nat) (s : Sched) (config : Nat) :
    List ReloadEvent × Except String Sched :=
  match newScheduler config s.torrentArchive s.stats s.pctx
      s.announceClient s.netevents with
  | .error e =>
      ([.stopped], .error ("create new scheduler: " ++ e))
  | .ok n =>
      match start n aq with
      | .error e =>
          ([.stopped,
            .constructed config s.torrentArchive s.stats s.pctx
              s.announceClient s.netevents],
           .error ("start new scheduler: " ++ e))
      | .ok _ =>
          ([.stopped,
            .constructed config s.torrentArchive s.stats s.pctx
              s.announceClient s.netevents,
            .startedWith aq],
           .ok n)

/-- Embedding of `reloadableScheduler.Reload`: any error from the inner
reload is fatal (`log.Fatalf`), so control does not return. -/
def reloadOp
    (newScheduler : Nat → Nat → Nat → Nat → Nat → Nat →
      Except String Sched)
    (start : Sched → Nat → Except String Unit)
    (aq : Nat) (s : Sched) (config : Nat) :
    List ReloadEvent × ReloadResult :=
  match reloadInner newScheduler start aq s config with
  | (ev, .ok n) => (ev, ReloadResult.ok n)
  | (ev, .error e) =>
      (ev, ReloadResult.fatalExit
        ("Failed to reload scheduler config: " ++ e))

/-- C7: Reload first stops the current scheduler, then constructs a fresh
scheduler from the new config reusing the old scheduler's torrent
archive, stats, peer context, announce client and network-events sink,
and starts it with the fresh announce queue; when construction or start
fails the outcome is a fatal process abort (no scheduler is returned). -/
theorem reload_spec
    (newScheduler : Nat → Nat → Nat → Nat → Nat → Nat →
      Except String Sched)
    (start : Sched → Nat → Except String Unit)
    (aq : Nat) (s : Sched) (config : Nat) :
    ((reloadOp newScheduler start aq s config).1.head?
       = some ReloadEvent.stopped) ∧
    (∀ e, newScheduler config s.torrentArchive s.stats s.pctx
        s.announceClient s.netevents = .error e →
      reloadOp newScheduler start aq s config
        = ([.stopped],
           .fatalExit ("Failed to reload scheduler config: "
             ++ ("create new scheduler: " ++ e)))) ∧
    (∀ n e, newScheduler config s.torrentArchive s.stats s.pctx
        s.announceClient s.netevents = .ok n → start n aq = .error e →
      reloadOp newScheduler start aq s config
        = ([.stopped,
            .constructed config s.torrentArchive s.stats s.pctx
              s.announceClient s.netevents],
           .fatalExit ("Failed to reload scheduler config: "
             ++ ("start new scheduler: " ++ e)))) ∧
    (∀ n, newScheduler config s.torrentArchive s.stats s.pctx
        s.announceClient s.netevents = .ok n → start n aq = .ok () →
      reloadOp newScheduler start aq s config
        = ([.stopped,
            .constructed config s.torrentArchive s.stats s.pctx
              s.announceClient s.netevents,
            .startedWith aq],
           .ok n)) := by
  refine ⟨?_, ?_, ?_, ?_⟩
  · rcases hns : newScheduler config s.torrentArchive s.stats s.pctx
        s.announceClient s.netevents with e | n
    · simp [reloadOp, reloadInner, hns]
    · rcases hst : start n aq with e | u
      · simp [reloadOp, reloadInner, hns, hst]
      · simp [reloadOp, reloadInner, hns, hst]
  · intro e he
    simp [reloadOp, reloadInner, he]
  · intro n e hn hst
    simp [reloadOp, reloadInner, hn, hst]
  · intro n hn hst
    simp [reloadOp, reloadInner, hn, hst]

/-- Closed instance discharging the hypotheses of `reload_spec` with a
construction and start that succeed. -/
theorem reload_spec_witness :
    reloadOp (fun c ta st p a n => Except.ok ⟨c, ta, st, p, a, n⟩)
      (fun _ _ => Except.ok ()) 7 ⟨1, 2, 3, 4, 5, 6⟩ 9
      = ([.stopped, .constructed 9 2 3 4 5 6, .startedWith 7],
         .ok ⟨9, 2, 3, 4, 5, 6⟩) :=
  (reload_spec (fun c ta st p a n => Except.ok ⟨c, ta, st, p, a, n⟩)
    (fun _ _ => Except.ok ()) 7 ⟨1, 2, 3, 4, 5, 6⟩ 9).2.2.2
    ⟨9, 2, 3, 4, 5, 6⟩ rfl rfl

end Kraken.Reload

namespace Kraken.Dedup

/-- State of `IntervalTrap`: the interval and the previous run instant. -/
structure Trap where
  interval : Nat
  prev : Nat
deriving DecidableEq

/-- Embedding of `IntervalTrap.ready`:
`clk.Now().After(prev.Add(interval))` — strictly more than `interval`
elapsed since `prev`. -/
def ready (t : Trap) (now : Nat) : Bool := t.prev + t.interval < now

/-- One `Trap()` call: the clock is read once under the read lock
(`now1`), re-read under the write lock (`now2`), and `taskEnd` is the
instant observed after `task.Run()` completes. -/
structure TrapCall where
  now1 : Nat
  now2 : Nat
  taskEnd : Nat
deriving DecidableEq

/-- Embedding of `IntervalTrap.Trap`: a no-op unless both the read-locked
check and the write-locked recheck see the interval strictly elapsed;
when the task runs, `prev` is set to the clock read after the task
returns. The second component records whether the task ran. -/
def trap (t : Trap) (c : TrapCall) : Trap × Bool :=
  if ready t c.now1 then
    if ready t c.now2 then ({ t with prev := c.taskEnd }, true)
    else (t, false)
  else (t, false)

/-- Run flags of a sequence of `Trap()` calls. -/
def trapStates (t : Trap) : List TrapCall → List Bool
  | [] => []
  | c :: cs => (trap t c).2 :: trapStates (trap t c).1 cs

/-- State after a sequence of `Trap()` calls. -/
def trapFold (t : Trap) : List TrapCall → Trap
  | [] => t
  | c :: cs => trapFold (trap t c).1 cs

theorem trap_run (t : Trap) (c : TrapCall) (h : (trap t c).2 = true) :
    (ready t c.now1 = true ∧ ready t c.now2 = true) ∧
    (trap t c).1 = { t with prev := c.taskEnd } := by
  unfold trap at *
  by_cases h1 : ready t c.now1
  · rw [if_pos h1] at *
    by_cases h2 : ready t c.now2
    · rw [if_pos h2] at *
      exact ⟨⟨by simpa using h1, by simpa using h2⟩, rfl⟩
    · rw [if_neg h2] at h
      simp at h
  · rw [if_neg h1] at h
    simp at h

theorem trap_noop (t : Trap) (c : TrapCall) (h : (trap t c).2 = false) :
    (trap t c).1 = t := by
  unfold trap at *
  by_cases h1 : ready t c.now1
  · rw [if_pos h1] at *
    by_cases h2 : ready t c.now2
    · rw [if_pos h2] at h
      simp at h
    · rw [if_neg h2]
  · rw [if_neg h1]

theorem trapFold_noop (t : Trap) :
    ∀ cs : List TrapCall, (∀ b ∈ trapStates t cs, b = false) →
      trapFold t cs = t := by
  intro cs
  induction cs generalizing t with
  | nil => intro _; rfl
  | cons c cs ih =>
      intro h
      have hb : (trap t c).2 = false := h _ (by simp [trapStates])
      have ht := trap_noop t c hb
      have htail : ∀ b ∈ trapStates (trap t c).1 cs, b = false := by
        intro b hb2
        exact h b (by simp [trapStates, hb2])
      show trapFold (trap t c).1 cs = t
      rw [ht]
      rw [ht] at htail
      exact ih t htail

/-- C8: the wrapped task never runs unless strictly more than `interval`
has elapsed since the recorded previous run time (at both clock reads of
the call); when it runs, the previous-run time becomes the task's
completion instant; a call that does not run leaves the state untouched;
and between one run and the next run (with only no-op calls in between)
strictly more than `interval` elapses past the task's completion. -/
theorem interval_trap_spec (t : Trap) (c : TrapCall) (cs : List TrapCall)
    (c' : TrapCall) :
    ((trap t c).2 = true →
      t.prev + t.interval < c.now1 ∧ t.prev + t.interval < c.now2 ∧
      (trap t c).1.prev = c.taskEnd) ∧
    ((trap t c).2 = false → (trap t c).1 = t) ∧
    ((trap t c).2 = true →
      c.now2 ≤ c.taskEnd →
      (∀ b ∈ trapStates (trap t c).1 cs, b = false) →
      (trap (trapFold (trap t c).1 cs) c').2 = true →
      c.taskEnd + t.interval < c'.now2 ∧
        c.now2 + t.interval < c'.now2) := by
  refine ⟨?_, trap_noop t c, ?_⟩
  · intro h
    rcases trap_run t c h with ⟨⟨h1, h2⟩, hst⟩
    refine ⟨by simpa [ready] using h1, by simpa [ready] using h2, ?_⟩
    rw [hst]
  · intro h hend hnoop hrun
    rcases trap_run t c h with ⟨_, hst⟩
    have hfold := trapFold_noop (trap t c).1 cs hnoop
    rw [hfold] at hrun
    rcases trap_run (trap t c).1 c' hrun with ⟨⟨_, h2'⟩, _⟩
    have hcond : (trap t c).1.prev + (trap t c).1.interval < c'.now2 := by
      simpa [ready] using h2'
    rw [hst] at hcond
    simp only [] at hcond
    constructor
    · exact hcond
    · omega

/-- Closed instance discharging the hypotheses of `interval_trap_spec` at
concrete instants: interval 10, runs at clock 12, a no-op call, then a
run at clock 30. -/
theorem interval_trap_spec_witness :
    (trap ⟨10, 0⟩ ⟨11, 12, 15⟩).2 = true ∧
    (15 : Nat) + 10 < 30 ∧ (12 : Nat) + 10 < 30 :=
  ⟨by decide,
   ((interval_trap_spec ⟨10, 0⟩ ⟨11, 12, 15⟩ [⟨5, 5, 5⟩]
      ⟨30, 30, 31⟩).2.2 (by decide) (by decide) (by decide)
      (by decide)).1,
   ((interval_trap_spec ⟨10, 0⟩ ⟨11, 12, 15⟩ [⟨5, 5, 5⟩]
      ⟨30, 30, 31⟩).2.2 (by decide) (by decide) (by decide)
      (by decide)).2⟩
end Kraken.Dedup

namespace Kraken.Store

/-- File-system error kinds distinguished by `CreateCacheFile`: Go
`os.IsExist` classifies `isExist`; everything else is `other`. -/
inductive FsError where
  | isExist
  | other (msg : String)
deriving DecidableEq

/-- Names present in the upload and cache directories of a `SimpleStore`. -/
structure SimpleFS where
  uploads : List String
  cache : List String
deriving DecidableEq

/-- Modelled from the spec: the base file-store call
`MoveFileFrom(cacheName, state, uploadPath)` used by
`SimpleStore.MoveUploadFileToCache` is not part of the sources; following
the persisted-state description (a content-addressed cache directory
keyed by name), committing to a name already present in the cache yields
an is-exist error, and otherwise moves the upload under the cache name.
`GetFilePath` failing when the upload is absent gives the non-exist error
path, and the deferred `DeleteUploadFile(uploadName)` removes the upload
entry on every path past it. -/
def moveUploadFileToCache (fs : SimpleFS) (uploadName cacheName : String) :
    SimpleFS × Except FsError Unit :=
  if fs.uploads.contains uploadName then
    let fs1 : SimpleFS :=
      { fs with uploads := fs.uploads.filter (fun x => x ≠ uploadName) }
    if fs1.cache.contains cacheName then (fs1, .error .isExist)
    else ({ fs1 with cache := cacheName :: fs1.cache }, .ok ())
  else (fs, .error (.other "file not found"))

/-- Embedding of `SimpleStore.CreateCacheFile`: create a temporary upload
file `tmp` (`name` plus a fresh uuid), stream the reader into it
(`copyErr` is the outcome of `io.Copy`), move it into the cache under
`name`, and treat an is-exist outcome of the move as success
(`err != nil && !os.IsExist(err)` is the only error path). -/
def createCacheFile (fs : SimpleFS) (name tmp : String)
    (copyErr : Option String) : SimpleFS × Except FsError Unit :=
  let fs1 : SimpleFS := { fs with uploads := tmp :: fs.uploads }
  match copyErr with
  | some m =>
      ({ fs1 with uploads := fs1.uploads.filter (fun x => x ≠ tmp) },
       .error (.other ("copy: " ++ m)))
  | none =>
      match moveUploadFileToCache fs1 tmp name with
      | (fs2, .ok _) => (fs2, .ok ())
      | (fs2, .error .isExist) => (fs2, .ok ())
      | (fs2, .error e) => (fs2, .error e)

/-- C10: when a cache file for `name` already exists, the commit step of
`CreateCacheFile` observes an is-exist error and `CreateCacheFile`
nevertheless returns success, keeping the cache entry; hence calling
`CreateCacheFile` twice with the same name (with successful copies)
succeeds both times. -/
theorem create_cache_file_idempotent (fs : SimpleFS)
    (name tmp tmp2 : String)
    (hexists : fs.cache.contains name = true) :
    (moveUploadFileToCache { fs with uploads := tmp :: fs.uploads } tmp
       name).2 = .error .isExist ∧
    (createCacheFile fs name tmp none).2 = .ok () ∧
    (createCacheFile fs name tmp none).1.cache.contains name = true ∧
    (createCacheFile (createCacheFile fs name tmp none).1 name tmp2
       none).2 = .ok () := by
  have hmove : moveUploadFileToCache { fs with uploads := tmp :: fs.uploads }
      tmp name
      = ({ uploads := (tmp :: fs.uploads).filter (fun x => x ≠ tmp),
           cache := fs.cache }, .error .isExist) := by
    rw [moveUploadFileToCache]
    rw [if_pos (by simp)]
    rw [if_pos hexists]
  have hcreate : createCacheFile fs name tmp none
      = ({ uploads := (tmp :: fs.uploads).filter (fun x => x ≠ tmp),
           cache := fs.cache }, .ok ()) := by
    rw [createCacheFile]
    simp only [hmove]
  refine ⟨by rw [hmove], by rw [hcreate], by rw [hcreate]; exact hexists, ?_⟩
  have hmove2 : moveUploadFileToCache
      { uploads := tmp2 :: (tmp :: fs.uploads).filter (fun x => x ≠ tmp),
        cache := fs.cache } tmp2 name
      = ({ uploads := (tmp2 :: (tmp :: fs.uploads).filter
             (fun x => x ≠ tmp)).filter (fun x => x ≠ tmp2),
           cache := fs.cache }, .error .isExist) := by
    rw [moveUploadFileToCache]
    rw [if_pos (by simp)]
    rw [if_pos hexists]
  rw [hcreate]
  rw [createCacheFile]
  simp only [hmove2]

/-- Closed instance discharging the hypothesis of
`create_cache_file_idempotent` at a store already caching the name. -/
theorem create_cache_file_idempotent_witness :
    ((["a"] : List String).contains "a" = true) ∧
    (createCacheFile ⟨[], ["a"]⟩ "a" "t1" none).2 = .ok () :=
  ⟨by decide,
   (create_cache_file_idempotent ⟨[], ["a"]⟩ "a" "t1" "t2"
     (by decide)).2.1⟩

end Kraken.Store
